import Mathlib

/-!
Verification of the synthetic competing-risks generator and hazard-integration
engine of `examples/plot_marginal_cumulative_incidence_estimation.py`.

The source script simulates N subjects under K competing Weibull causes,
injects uniform right-censoring, and numerically integrates the per-cause
hazards on a uniform fine time grid into the all-cause survival curve and the
per-cause theoretical cumulative incidence functions (CIFs).

We embed the numerical pipeline shallowly over the reals: numpy arrays over a
uniform grid become functions `ℕ → ℝ` of the grid index, `np.cumsum` becomes
an inclusive prefix sum, and the random generator becomes an abstract
deterministic stream consumed in the source's draw order.
-/

noncomputable section

open Real

/-- Parameters of one competing cause, mirroring the dictionaries in the
`distributions` list of the source: a positive integer event id and the
Weibull `shape` and `scale` parameters. -/
structure CauseSpec where
  event_id : ℕ
  shape : ℝ
  scale : ℝ

/-- The source constant `base_scale = 1_000.0`. -/
def base_scale : ℝ := 1000

/-- The source constant `t_max = 3.0 * base_scale`. -/
def t_max : ℝ := 3 * base_scale

/-- The concrete `distributions` list built by the source script. -/
def distributions : List CauseSpec :=
  [⟨1, 0.5, 10 * base_scale⟩, ⟨2, 1, 3 * base_scale⟩, ⟨3, 5, 2 * base_scale⟩]

/-- The `weibull_hazard(t, shape, scale, **ignored_kwargs)` function of the
source: `np.where(t == 0, 0.0, (shape / scale) * (t / scale) ** (shape - 1.0))`.
The branch at `t = 0` is the source's explicit override of the singular point;
the power is a real (fractional) power. -/
def weibull_hazard (t shape scale : ℝ) : ℝ :=
  if t = 0 then 0 else (shape / scale) * (t / scale) ^ (shape - 1)

/-- Evaluation of a cause's hazard from its `CauseSpec`, mirroring the call
`weibull_hazard(fine_time_grid, **dist)`: only `shape` and `scale` are read,
every other entry of the dictionary lands in `**ignored_kwargs`. -/
def hazard_of (d : CauseSpec) (t : ℝ) : ℝ :=
  weibull_hazard t d.shape d.scale

/-- The uniform time grid `np.linspace(0, t_max, num)` viewed through its
index: point `i` sits at `i * dt` where `dt = np.diff(grid)[0]` is the
constant step. -/
def uniformGrid (dt : ℝ) (i : ℕ) : ℝ := i * dt

/-- Inclusive prefix sum, the meaning of `np.cumsum` at index `i`. -/
def cumsum (f : ℕ → ℝ) (i : ℕ) : ℝ := ∑ j ∈ Finset.range (i + 1), f j

/-- The `all_hazards` stack of the source: one hazard curve per cause, in the
order of the `distributions` list. -/
def all_hazards (ds : List CauseSpec) (grid : ℕ → ℝ) : List (ℕ → ℝ) :=
  ds.map fun d => fun i => hazard_of d (grid i)

/-- The `any_event_hazards = all_hazards.sum(axis=0)` array of the source:
pointwise sum of the per-cause hazard curves. -/
def any_event_hazards (ds : List CauseSpec) (grid : ℕ → ℝ) (i : ℕ) : ℝ :=
  ((all_hazards ds grid).map fun h => h i).sum

/-- The `any_event_survival = np.exp(-(any_event_hazards.cumsum(axis=-1) * dt))`
array of the source: all-cause survival by left-Riemann integration of the
total hazard. -/
def any_event_survival (ds : List CauseSpec) (grid : ℕ → ℝ) (dt : ℝ) (i : ℕ) : ℝ :=
  Real.exp (-(cumsum (any_event_hazards ds grid) i * dt))

/-- The `theoretical_cif = (hazards_i * any_event_survival).cumsum(axis=-1) * dt`
array of the source, for the cause `d` of the loop iteration. -/
def theoretical_cif (ds : List CauseSpec) (d : CauseSpec) (grid : ℕ → ℝ) (dt : ℝ)
    (i : ℕ) : ℝ :=
  cumsum (fun j => hazard_of d (grid j) * any_event_survival ds grid dt j) i * dt

/-- Index scan of `np.argmin` over one row: `best` is the smallest value seen so
far, `besti` its index, `i` the index of the head of the remaining list. A later
entry replaces the champion only when strictly smaller, so the first minimum
wins, as in numpy. -/
def argminAux (best : ℝ) (besti i : ℕ) : List ℝ → ℕ
  | [] => besti
  | x :: xs => if x < best then argminAux x i (i + 1) xs else argminAux best besti (i + 1) xs

/-- The `np.argmin(event_times, axis=1)` resolution applied to one subject's
row of latent event times: index of the first minimal entry. -/
def np_argmin : List ℝ → ℕ
  | [] => 0
  | x :: xs => argminAux x 0 1 xs

/-- One row of the dataset: `duration` and the integer `event` marker
(`0` is reserved for censoring). -/
structure ObservedRecord where
  event : ℕ
  duration : ℝ

/-- The `y_uncensored` record of one subject, from its row of the latent event
matrix: `event = first_event_idx + 1` and
`duration = event_times[i, first_event_idx]`. -/
def uncensored_record (row : List ℝ) : ObservedRecord :=
  { event := np_argmin row + 1
    duration := row.getD (np_argmin row) 0 }

/-- The `y_censored` record of one subject: the source computes
`event = np.where(censoring_times < duration, 0, event)` and
`duration = np.minimum(censoring_times, duration)` with `c` the subject's
censoring time. -/
def censored_record (c : ℝ) (r : ObservedRecord) : ObservedRecord :=
  { event := if c < r.duration then 0 else r.event
    duration := min c r.duration }

/-- Survival curve exactly as the spec words it: the exponential of minus the
cumulative sum, over grid points, of the sum over causes of the per-cause
hazard, times `dt`. -/
def survival_spec_formula (ds : List CauseSpec) (grid : ℕ → ℝ) (dt : ℝ)
    (i : ℕ) : ℝ :=
  Real.exp (-(cumsum (fun j => ∑ k : Fin ds.length, hazard_of (ds.get k) (grid j)) i * dt))

/-- Per-cause CIF exactly as the spec words it: the cumulative sum, over grid
points, of that cause's hazard times the all-cause survival, times `dt`. -/
def cif_spec_formula (ds : List CauseSpec) (d : CauseSpec) (grid : ℕ → ℝ)
    (dt : ℝ) (i : ℕ) : ℝ :=
  cumsum (fun j => hazard_of d (grid j) * survival_spec_formula ds grid dt j) i * dt

/-- Output of one generator run: the observed records together with the
theoretical hazard, survival and CIF curves. -/
structure RunOutputs where
  records : List ObservedRecord
  hazards : List (ℕ → ℝ)
  survival : ℕ → ℝ
  cifs : List (ℕ → ℝ)

/-- One run of the generator from given latent event rows and unit censoring
draws `u`: subject `i`'s censoring time is `high * u i`, the meaning of
`rng.uniform(low=0.0, high=high)`; records follow `y_censored`; the
theoretical curves are computed from the cause specs and the grid alone. -/
def run_pipeline (rows : List (List ℝ)) (u : ℕ → ℝ) (high : ℝ)
    (ds : List CauseSpec) (dt : ℝ) : RunOutputs :=
  { records := rows.enum.map fun p =>
      censored_record (high * u p.1) (uncensored_record p.2)
    hazards := all_hazards ds (uniformGrid dt)
    survival := any_event_survival ds (uniformGrid dt) dt
    cifs := ds.map fun d => theoretical_cif ds d (uniformGrid dt) dt }

/-- State of the shared random source `rng = np.random.default_rng(0)`: the
seed fixes the whole stream of raw variates, the counter records how many have
been consumed so far. -/
structure Rng where
  seed : ℕ
  counter : ℕ

/-- One raw draw from the stream: the value at the current counter, and the
advanced state. -/
def draw (stream : ℕ → ℕ → ℝ) (g : Rng) : ℝ × Rng :=
  (stream g.seed g.counter, ⟨g.seed, g.counter + 1⟩)

/-- `n` consecutive raw draws, in stream order. -/
def drawN (stream : ℕ → ℕ → ℝ) : ℕ → Rng → List ℝ × Rng
  | 0, g => ([], g)
  | n + 1, g =>
    let p := draw stream g
    let q := drawN stream n p.2
    (p.1 :: q.1, q.2)

/-- The sampler's per-cause loop over `distributions`: each call
`weibull_min.rvs(shape, scale=scale, size=n, random_state=rng)` consumes `n`
raw draws in order, transformed into variates by the sampling map `F` of the
external distribution primitive. Returns the per-cause columns of the latent
event matrix and the advanced random state. -/
def sample_event_times (stream : ℕ → ℕ → ℝ) (F : CauseSpec → ℝ → ℝ) (n : ℕ) :
    List CauseSpec → Rng → List (List ℝ) × Rng
  | [], g => ([], g)
  | d :: rest, g =>
    let p := drawN stream n g
    let q := sample_event_times stream F n rest p.2
    ((p.1.map (F d)) :: q.1, q.2)

/-- Results of one seeded run: the latent event matrix (as rows), the raw
censoring times, the observed records, and the theoretical curves. -/
structure FullRun where
  matrix : List (List ℝ)
  cens : List ℝ
  records : List ObservedRecord
  survival : ℕ → ℝ
  cifs : List (ℕ → ℝ)

/-- The pipeline in the source's order: seed the random source, draw the latent
event times cause after cause, then draw the censoring times from the same
source, then build the observed records and compute the theoretical curves.
`F` is the external sampling transform and `high` the censoring bound
`1.2 * t_max`. -/
def full_run (stream : ℕ → ℕ → ℝ) (F : CauseSpec → ℝ → ℝ) (seed n : ℕ)
    (ds : List CauseSpec) (dt high : ℝ) : FullRun :=
  let p := sample_event_times stream F n ds ⟨seed, 0⟩
  let rows := (List.range n).map fun i => p.1.map fun col => col.getD i 0
  let q := drawN stream n p.2
  let cens := q.1.map fun v => high * v
  { matrix := rows
    cens := cens
    records := (List.range n).map fun i =>
      censored_record (cens.getD i 0) (uncensored_record (rows.getD i []))
    survival := any_event_survival ds (uniformGrid dt) dt
    cifs := ds.map fun d => theoretical_cif ds d (uniformGrid dt) dt }

/-- Survival sequence of the integrator, abstracted over the premultiplied
per-step hazard mass `h j = hazard(t_j) * dt`: the exponential of minus the
inclusive prefix sum of `h`. -/
def stepSurvival (h : ℕ → ℝ) (j : ℕ) : ℝ := Real.exp (-(cumsum h j))

/-- Accumulated incidence of the integrator, abstracted over the premultiplied
per-step hazard mass `h`: the prefix sum of `h` times the survival sequence. -/
def stepIncidence (h : ℕ → ℝ) (i : ℕ) : ℝ :=
  cumsum (fun k => h k * stepSurvival h k) i

/-- A constant raw-draw stream, used to instantiate the run model on concrete
inputs. -/
def constStream : ℕ → ℕ → ℝ := fun _ _ => 0

/-- The identity sampling transform, used to instantiate the run model on
concrete inputs. -/
def idTransform : CauseSpec → ℝ → ℝ := fun _ x => x

end

/-- Claim C2: the hazard evaluated at `t = 0` is exactly `0` for every positive
shape and scale, and at every `t > 0` it is `(shape / scale) * (t / scale) ^
(shape - 1)`; the definition is total, so the `t = 0` singularity for
`shape < 1` never surfaces as a fault. -/
theorem hazard_zero_override_and_formula (shape scale : ℝ)
    (hsh : 0 < shape) (hsc : 0 < scale) :
    weibull_hazard 0 shape scale = 0 ∧
    ∀ t : ℝ, 0 < t →
      weibull_hazard t shape scale = (shape / scale) * (t / scale) ^ (shape - 1) := by
  constructor
  · simp [weibull_hazard]
  · intro t ht
    simp [weibull_hazard, ne_of_gt ht]

/-- Witness for C2 at `shape = 1/2`, `scale = 2`: the hypotheses hold and the
override plus the positive-time formula follow at `t = 7`. -/
theorem hazard_zero_override_and_formula_witness :
    0 < (1 / 2 : ℝ) ∧ 0 < (2 : ℝ) ∧
    (weibull_hazard 0 (1 / 2) 2 = 0 ∧
      ∀ t : ℝ, 0 < t →
        weibull_hazard t (1 / 2) 2 = ((1 / 2 : ℝ) / 2) * (t / 2) ^ ((1 / 2 : ℝ) - 1)) :=
  ⟨by norm_num, by norm_num,
    hazard_zero_override_and_formula (1 / 2) 2 (by norm_num) (by norm_num)⟩

/-- Correctness of the `argminAux` scan: read through any lookup `g` that
agrees with the champion at `besti` and with the remaining list from index `i`
on, the returned index holds a value no larger than the champion and than every
remaining entry, and that value is the champion's or one of the list's. -/
theorem argminAux_le (xs : List ℝ) : ∀ (best : ℝ) (besti i : ℕ) (g : ℕ → ℝ),
    g besti = best → (∀ k, k < xs.length → g (i + k) = xs.getD k 0) →
    g (argminAux best besti i xs) ≤ best ∧
    (∀ x ∈ xs, g (argminAux best besti i xs) ≤ x) ∧
    (g (argminAux best besti i xs) = best ∨ g (argminAux best besti i xs) ∈ xs) := by
  induction xs with
  | nil =>
    intro best besti i g hb _
    simp [argminAux, hb]
  | cons x xs ih =>
    intro best besti i g hb hg
    have hx : g i = x := by simpa using hg 0 (by simp)
    have hg' : ∀ k, k < xs.length → g (i + 1 + k) = xs.getD k 0 := by
      intro k hk
      have h1 := hg (k + 1) (by simpa using Nat.succ_lt_succ hk)
      have h2 : i + (k + 1) = i + 1 + k := by omega
      rw [h2] at h1
      simpa using h1
    by_cases hlt : x < best
    · simp only [argminAux, if_pos hlt]
      obtain ⟨h1, h2, h3⟩ := ih x i (i + 1) g hx hg'
      refine ⟨h1.trans hlt.le, ?_, ?_⟩
      · intro y hy
        rcases List.mem_cons.mp hy with rfl | hy
        · exact h1
        · exact h2 y hy
      · rcases h3 with h3 | h3
        · exact Or.inr (by simp [h3])
        · exact Or.inr (List.mem_cons_of_mem _ h3)
    · simp only [argminAux, if_neg hlt]
      obtain ⟨h1, h2, h3⟩ := ih best besti (i + 1) g hb hg'
      refine ⟨h1, ?_, ?_⟩
      · intro y hy
        rcases List.mem_cons.mp hy with rfl | hy
        · exact h1.trans (not_lt.mp hlt)
        · exact h2 y hy
      · rcases h3 with h3 | h3
        · exact Or.inl h3
        · exact Or.inr (List.mem_cons_of_mem _ h3)

/-- Claim C4: for every nonempty row of the latent event matrix, the resolved
record carries `event = np_argmin row + 1` (cause ids in `distributions` list
order), and its duration — the row entry at the argmin index — is an entry of
the row no larger than every entry, i.e. the row's minimum. -/
theorem event_time_sampler_resolution (row : List ℝ) (h : row ≠ []) :
    (uncensored_record row).event = np_argmin row + 1 ∧
    (uncensored_record row).duration ∈ row ∧
    ∀ x ∈ row, (uncensored_record row).duration ≤ x := by
  cases row with
  | nil => exact absurd rfl h
  | cons y ys =>
    have hb : (y :: ys).getD 0 0 = y := rfl
    have hg : ∀ k, k < ys.length → (y :: ys).getD (1 + k) 0 = ys.getD k 0 := by
      intro k _
      rw [Nat.add_comm 1 k]
      rfl
    obtain ⟨h1, h2, h3⟩ :=
      argminAux_le ys y 0 1 (fun k => (y :: ys).getD k 0) hb hg
    have hd : (uncensored_record (y :: ys)).duration
        = (y :: ys).getD (argminAux y 0 1 ys) 0 := rfl
    refine ⟨rfl, ?_, ?_⟩
    · rcases h3 with h3 | h3
      · rw [hd, h3]
        exact List.mem_cons_self y ys
      · rw [hd]
        exact List.mem_cons_of_mem _ h3
    · intro x hx
      rcases List.mem_cons.mp hx with rfl | hx
      · exact h1
      · exact h2 x hx

/-- Witness for C4 on the concrete row `[2, 1/2, 1]`. -/
theorem event_time_sampler_resolution_witness :
    ([2, 1/2, 1] : List ℝ) ≠ [] ∧
    ((uncensored_record [2, 1/2, 1]).event = np_argmin [2, 1/2, 1] + 1 ∧
      (uncensored_record [2, 1/2, 1]).duration ∈ ([2, 1/2, 1] : List ℝ) ∧
      ∀ x ∈ ([2, 1/2, 1] : List ℝ), (uncensored_record [2, 1/2, 1]).duration ≤ x) :=
  ⟨by simp, event_time_sampler_resolution [2, 1/2, 1] (by simp)⟩

/-- Claim C3: every censored record satisfies
`duration = min(true_event_time, censoring_time)`, its event marker is `0`
exactly when `censoring_time < true_event_time` (strict), and on a tie or a
later censoring time the record keeps the resolved cause id. -/
theorem censoring_injector_invariant (row : List ℝ) (c : ℝ) :
    (censored_record c (uncensored_record row)).duration
      = min (uncensored_record row).duration c ∧
    ((censored_record c (uncensored_record row)).event = 0 ↔
      c < (uncensored_record row).duration) ∧
    (¬ c < (uncensored_record row).duration →
      (censored_record c (uncensored_record row)).event
        = (uncensored_record row).event) := by
  refine ⟨min_comm c _, ?_, ?_⟩
  · by_cases hlt : c < (uncensored_record row).duration <;>
      simp [censored_record, uncensored_record, hlt]
  · intro hlt
    simp [censored_record, hlt]

/-- Witness for C3 at the row `[1]` with censoring time `1` (a tie: the record
keeps the cause id). -/
theorem censoring_injector_invariant_witness :
    (censored_record 1 (uncensored_record [1])).duration
      = min (uncensored_record [1]).duration 1 ∧
    ((censored_record 1 (uncensored_record [1])).event = 0 ↔
      (1 : ℝ) < (uncensored_record [1]).duration) ∧
    (¬ (1 : ℝ) < (uncensored_record [1]).duration →
      (censored_record 1 (uncensored_record [1])).event
        = (uncensored_record [1]).event) :=
  censoring_injector_invariant [1] 1

/-- Claim C9: with the censoring time drawn below the bound `1.2 * t_max`, the
observed duration stays strictly below `1.2 * t_max`, whatever the latent event
times are. -/
theorem observed_duration_bounded (row : List ℝ) (c : ℝ) (hc : c < 1.2 * t_max) :
    (censored_record c (uncensored_record row)).duration < 1.2 * t_max :=
  lt_of_le_of_lt (min_le_left _ _) hc

/-- Witness for C9: the empty row with censoring time `0`. -/
theorem observed_duration_bounded_witness :
    (0 : ℝ) < 1.2 * t_max ∧
    (censored_record 0 (uncensored_record [])).duration < 1.2 * t_max :=
  ⟨by norm_num [t_max, base_scale],
    observed_duration_bounded [] 0 (by norm_num [t_max, base_scale])⟩

/-- Prefix sum at index `0` is the first entry. -/
theorem cumsum_zero (f : ℕ → ℝ) : cumsum f 0 = f 0 := by
  simp [cumsum]

/-- Recurrence of the inclusive prefix sum. -/
theorem cumsum_succ (f : ℕ → ℝ) (i : ℕ) : cumsum f (i + 1) = cumsum f i + f (i + 1) :=
  Finset.sum_range_succ f (i + 1)

/-- A prefix sum of pointwise-nonnegative terms is monotone in the index. -/
theorem cumsum_mono {f : ℕ → ℝ} (hf : ∀ j, 0 ≤ f j) : Monotone (cumsum f) := by
  intro i j hij
  apply Finset.sum_le_sum_of_subset_of_nonneg
  · exact Finset.range_subset.mpr (by omega)
  · intro k _ _
    exact hf k

/-- The Weibull hazard is nonnegative at every nonnegative time when the shape
and scale are positive. -/
theorem weibull_hazard_nonneg {t shape scale : ℝ} (hsh : 0 < shape)
    (hsc : 0 < scale) (ht : 0 ≤ t) : 0 ≤ weibull_hazard t shape scale := by
  unfold weibull_hazard
  split
  · exact le_refl 0
  · exact mul_nonneg (div_nonneg hsh.le hsc.le)
      (Real.rpow_nonneg (div_nonneg ht hsc.le) _)

/-- The summed all-cause hazard is nonnegative at a grid point with
nonnegative time. -/
theorem any_event_hazards_nonneg {ds : List CauseSpec} {grid : ℕ → ℝ}
    (hpos : ∀ d ∈ ds, 0 < d.shape ∧ 0 < d.scale) {i : ℕ} (hg : 0 ≤ grid i) :
    0 ≤ any_event_hazards ds grid i := by
  unfold any_event_hazards all_hazards
  rw [List.map_map]
  apply List.sum_nonneg
  intro x hx
  simp only [List.mem_map, Function.comp] at hx
  obtain ⟨d, hd, rfl⟩ := hx
  exact weibull_hazard_nonneg (hpos d hd).1 (hpos d hd).2 hg

/-- Uniform grids with a nonnegative step live in nonnegative time. -/
theorem uniformGrid_nonneg {dt : ℝ} (hdt : 0 ≤ dt) (i : ℕ) : 0 ≤ uniformGrid dt i :=
  mul_nonneg (Nat.cast_nonneg i) hdt

/-- The computed survival curve is strictly positive everywhere. -/
theorem any_event_survival_pos (ds : List CauseSpec) (grid : ℕ → ℝ) (dt : ℝ)
    (i : ℕ) : 0 < any_event_survival ds grid dt i :=
  Real.exp_pos _

/-- The summed all-cause hazard vanishes at time `0`, by the hazard override. -/
theorem any_event_hazards_at_zero (ds : List CauseSpec) {grid : ℕ → ℝ}
    (hg : grid 0 = 0) : any_event_hazards ds grid 0 = 0 := by
  unfold any_event_hazards all_hazards
  rw [List.map_map]
  apply List.sum_eq_zero
  intro x hx
  simp only [List.mem_map, Function.comp] at hx
  obtain ⟨d, hd, rfl⟩ := hx
  simp [hazard_of, weibull_hazard, hg]

/-- Claim C5: with positive shapes and scales and a uniform grid of positive
step starting at `0`, the survival curve starts at exactly `1` and is
non-increasing over grid points, and each theoretical CIF starts at exactly `0`
and is non-decreasing over grid points. -/
theorem curves_boundary_and_monotone (ds : List CauseSpec) (dt : ℝ)
    (hpos : ∀ d ∈ ds, 0 < d.shape ∧ 0 < d.scale) (hdt : 0 < dt) :
    any_event_survival ds (uniformGrid dt) dt 0 = 1 ∧
    (∀ d ∈ ds, theoretical_cif ds d (uniformGrid dt) dt 0 = 0) ∧
    Antitone (any_event_survival ds (uniformGrid dt) dt) ∧
    ∀ d ∈ ds, Monotone (theoretical_cif ds d (uniformGrid dt) dt) := by
  have hg0 : uniformGrid dt 0 = 0 := by simp [uniformGrid]
  have hH : ∀ j, 0 ≤ any_event_hazards ds (uniformGrid dt) j := fun j =>
    any_event_hazards_nonneg hpos (uniformGrid_nonneg hdt.le j)
  refine ⟨?_, ?_, ?_, ?_⟩
  · rw [any_event_survival, cumsum_zero, any_event_hazards_at_zero ds hg0]
    simp
  · intro d _
    rw [theoretical_cif, cumsum_zero, hg0]
    simp [hazard_of, weibull_hazard]
  · intro i j hij
    rw [any_event_survival, any_event_survival, Real.exp_le_exp, neg_le_neg_iff]
    exact mul_le_mul_of_nonneg_right (cumsum_mono hH hij) hdt.le
  · intro d hd i j hij
    rw [theoretical_cif, theoretical_cif]
    refine mul_le_mul_of_nonneg_right ?_ hdt.le
    refine cumsum_mono (fun k => ?_) hij
    exact mul_nonneg
      (weibull_hazard_nonneg (hpos d hd).1 (hpos d hd).2 (uniformGrid_nonneg hdt.le k))
      (any_event_survival_pos ds (uniformGrid dt) dt k).le

/-- Witness for C5 with the single cause `⟨1, 1, 1⟩` and step `dt = 1`. -/
theorem curves_boundary_and_monotone_witness :
    (∀ d ∈ ([⟨1, 1, 1⟩] : List CauseSpec), 0 < d.shape ∧ 0 < d.scale) ∧
    (0 : ℝ) < 1 ∧
    (any_event_survival [⟨1, 1, 1⟩] (uniformGrid 1) 1 0 = 1 ∧
      (∀ d ∈ ([⟨1, 1, 1⟩] : List CauseSpec),
        theoretical_cif [⟨1, 1, 1⟩] d (uniformGrid 1) 1 0 = 0) ∧
      Antitone (any_event_survival [⟨1, 1, 1⟩] (uniformGrid 1) 1) ∧
      ∀ d ∈ ([⟨1, 1, 1⟩] : List CauseSpec),
        Monotone (theoretical_cif [⟨1, 1, 1⟩] d (uniformGrid 1) 1)) := by
  have hpos : ∀ d ∈ ([⟨1, 1, 1⟩] : List CauseSpec), 0 < d.shape ∧ 0 < d.scale := by
    intro d hd
    rw [List.mem_singleton] at hd
    subst hd
    exact ⟨one_pos, one_pos⟩
  exact ⟨hpos, one_pos, curves_boundary_and_monotone [⟨1, 1, 1⟩] 1 hpos one_pos⟩

/-- Sum of a mapped list written as a sum over `Fin` positions. -/
theorem list_sum_map_eq_fin_sum {α : Type} (l : List α) (f : α → ℝ) :
    (l.map f).sum = ∑ k : Fin l.length, f (l.get k) := by
  induction l with
  | nil => simp
  | cons x xs ih =>
    rw [List.map_cons, List.sum_cons, ih]
    exact (Fin.sum_univ_succ fun k : Fin (xs.length + 1) => f ((x :: xs).get k)).symm

/-- Pointwise equal summands give equal prefix sums. -/
theorem cumsum_congr {f f' : ℕ → ℝ} (h : ∀ j, f j = f' j) (i : ℕ) :
    cumsum f i = cumsum f' i :=
  Finset.sum_congr rfl fun j _ => h j

/-- The source's summed hazard stack agrees with the spec's sum over causes. -/
theorem any_event_hazards_eq_fin_sum (ds : List CauseSpec) (grid : ℕ → ℝ) (i : ℕ) :
    any_event_hazards ds grid i = ∑ k : Fin ds.length, hazard_of (ds.get k) (grid i) := by
  rw [any_event_hazards, all_hazards, List.map_map]
  exact list_sum_map_eq_fin_sum ds fun d => hazard_of d (grid i)

/-- Claim C1: over any uniform-step grid, the integrator's survival curve is
pointwise `exp(-(cumulative_sum of the sum over causes of the per-cause
hazard) * dt)`, and each cause's CIF is pointwise `(cumulative_sum of that
cause's hazard times the all-cause survival) * dt`, exactly the spec's
formulas. -/
theorem integrator_matches_spec_formulas (ds : List CauseSpec) (dt : ℝ) (i : ℕ) :
    any_event_survival ds (uniformGrid dt) dt i
      = survival_spec_formula ds (uniformGrid dt) dt i ∧
    ∀ d ∈ ds, theoretical_cif ds d (uniformGrid dt) dt i
      = cif_spec_formula ds d (uniformGrid dt) dt i := by
  have hsurv : ∀ j, any_event_survival ds (uniformGrid dt) dt j
      = survival_spec_formula ds (uniformGrid dt) dt j := by
    intro j
    rw [any_event_survival, survival_spec_formula,
      cumsum_congr (any_event_hazards_eq_fin_sum ds (uniformGrid dt)) j]
  refine ⟨hsurv i, fun d _ => ?_⟩
  rw [theoretical_cif, cif_spec_formula]
  rw [cumsum_congr (fun j => by rw [hsurv j]) i]

/-- Witness for C1 on the source's `distributions` list with `dt = 1` at grid
index `2`. -/
theorem integrator_matches_spec_formulas_witness :
    any_event_survival distributions (uniformGrid 1) 1 2
      = survival_spec_formula distributions (uniformGrid 1) 1 2 ∧
    ∀ d ∈ distributions, theoretical_cif distributions d (uniformGrid 1) 1 2
      = cif_spec_formula distributions d (uniformGrid 1) 1 2 :=
  integrator_matches_spec_formulas distributions 1 2

/-- Claim C7: two runs differing only in the censoring bound produce the same
theoretical hazard, survival and CIF curves — these depend only on the cause
specs and the grid, never on the censoring parameter or the censoring draws. -/
theorem theoretical_curves_censoring_independent (rows : List (List ℝ))
    (u₁ u₂ : ℕ → ℝ) (ds : List CauseSpec) (dt high₁ high₂ : ℝ) :
    (run_pipeline rows u₁ high₁ ds dt).hazards
      = (run_pipeline rows u₂ high₂ ds dt).hazards ∧
    (run_pipeline rows u₁ high₁ ds dt).survival
      = (run_pipeline rows u₂ high₂ ds dt).survival ∧
    (run_pipeline rows u₁ high₁ ds dt).cifs
      = (run_pipeline rows u₂ high₂ ds dt).cifs :=
  ⟨rfl, rfl, rfl⟩

/-- Hazard curves depend only on the shape and scale entries of the cause
lists: pointwise equal parameters give equal summed hazards. -/
theorem any_event_hazards_congr {grid : ℕ → ℝ} {ds₁ ds₂ : List CauseSpec}
    (hds : List.Forall₂ (fun a b => a.shape = b.shape ∧ a.scale = b.scale) ds₁ ds₂) :
    ∀ i, any_event_hazards ds₁ grid i = any_event_hazards ds₂ grid i := by
  induction hds with
  | nil => intro i; rfl
  | cons hab _ ih =>
    intro i
    simp only [any_event_hazards, all_hazards, List.map_cons, List.sum_cons] at ih ⊢
    rw [hazard_of, hazard_of, hab.1, hab.2, ih i]

/-- Claim C10: the hazard reads only `shape` and `scale` — `event_id` and any
other extra field land in `**ignored_kwargs` — so two causes with equal shape
and scale yield identical hazard curves, and cause lists agreeing on shapes and
scales yield identical survival and CIF curves. -/
theorem hazard_ignores_extra_fields (grid : ℕ → ℝ) (dt : ℝ) (d₁ d₂ : CauseSpec)
    (hsh : d₁.shape = d₂.shape) (hsc : d₁.scale = d₂.scale)
    (ds₁ ds₂ : List CauseSpec)
    (hds : List.Forall₂ (fun a b => a.shape = b.shape ∧ a.scale = b.scale) ds₁ ds₂) :
    (∀ t, hazard_of d₁ t = hazard_of d₂ t) ∧
    (∀ i, any_event_survival ds₁ grid dt i = any_event_survival ds₂ grid dt i) ∧
    (∀ i, theoretical_cif ds₁ d₁ grid dt i = theoretical_cif ds₂ d₂ grid dt i) := by
  have hfun : ∀ t, hazard_of d₁ t = hazard_of d₂ t := by
    intro t
    rw [hazard_of, hazard_of, hsh, hsc]
  have hsurv : ∀ i, any_event_survival ds₁ grid dt i
      = any_event_survival ds₂ grid dt i := by
    intro i
    rw [any_event_survival, any_event_survival,
      cumsum_congr (any_event_hazards_congr hds) i]
  refine ⟨hfun, hsurv, fun i => ?_⟩
  rw [theoretical_cif, theoretical_cif]
  rw [cumsum_congr (fun j => by rw [hfun (grid j), hsurv j]) i]

/-- Witness for C10: two causes sharing `shape = scale = 1` but with distinct
event ids `1` and `2`, as singleton cause lists, on the unit grid. -/
theorem hazard_ignores_extra_fields_witness :
    (⟨1, 1, 1⟩ : CauseSpec).shape = (⟨2, 1, 1⟩ : CauseSpec).shape ∧
    (⟨1, 1, 1⟩ : CauseSpec).scale = (⟨2, 1, 1⟩ : CauseSpec).scale ∧
    ((∀ t, hazard_of ⟨1, 1, 1⟩ t = hazard_of ⟨2, 1, 1⟩ t) ∧
      (∀ i, any_event_survival [⟨1, 1, 1⟩] (uniformGrid 1) 1 i
        = any_event_survival [⟨2, 1, 1⟩] (uniformGrid 1) 1 i) ∧
      (∀ i, theoretical_cif [⟨1, 1, 1⟩] ⟨1, 1, 1⟩ (uniformGrid 1) 1 i
        = theoretical_cif [⟨2, 1, 1⟩] ⟨2, 1, 1⟩ (uniformGrid 1) 1 i)) :=
  ⟨rfl, rfl,
    hazard_ignores_extra_fields (uniformGrid 1) 1 ⟨1, 1, 1⟩ ⟨2, 1, 1⟩ rfl rfl
      [⟨1, 1, 1⟩] [⟨2, 1, 1⟩]
      (List.Forall₂.cons ⟨rfl, rfl⟩ List.Forall₂.nil)⟩

/-- The final state after `n` draws: the seed is unchanged and the counter has
advanced by exactly `n`. -/
theorem drawN_state (stream : ℕ → ℕ → ℝ) : ∀ (n : ℕ) (g : Rng),
    (drawN stream n g).2 = ⟨g.seed, g.counter + n⟩ := by
  intro n
  induction n with
  | zero => intro g; rfl
  | succ n ih =>
    intro g
    show (drawN stream n ⟨g.seed, g.counter + 1⟩).2 = _
    rw [ih]
    simp [Nat.add_comm, Nat.add_assoc, Nat.add_left_comm]

/-- The values of `n` consecutive draws: the stream read at the `n` counters
starting from the current one. -/
theorem drawN_values (stream : ℕ → ℕ → ℝ) : ∀ (n : ℕ) (g : Rng),
    (drawN stream n g).1 = (List.range n).map fun j => stream g.seed (g.counter + j) := by
  intro n
  induction n with
  | zero => intro g; rfl
  | succ n ih =>
    intro g
    show stream g.seed g.counter :: (drawN stream n ⟨g.seed, g.counter + 1⟩).1 = _
    rw [ih, List.range_succ_eq_map, List.map_cons, List.map_map]
    refine congrArg₂ _ (by rw [Nat.add_zero]) ?_
    refine List.map_congr_left fun j _ => ?_
    show stream g.seed (g.counter + 1 + j) = stream g.seed (g.counter + (j + 1))
    rw [Nat.add_assoc, Nat.add_comm 1 j]

/-- The sampler's loop consumes exactly `n` draws per cause, in list order: it
leaves the counter at `n * K` more than it found it. -/
theorem sample_event_times_state (stream : ℕ → ℕ → ℝ) (F : CauseSpec → ℝ → ℝ)
    (n : ℕ) : ∀ (ds : List CauseSpec) (g : Rng),
    (sample_event_times stream F n ds g).2 = ⟨g.seed, g.counter + n * ds.length⟩ := by
  intro ds
  induction ds with
  | nil => intro g; simp [sample_event_times]
  | cons d rest ih =>
    intro g
    show (sample_event_times stream F n rest (drawN stream n g).2).2 = _
    rw [ih, drawN_state]
    show Rng.mk g.seed (g.counter + n + n * rest.length) = _
    rw [List.length_cons, Nat.mul_succ]
    refine congrArg _ ?_
    omega

/-- Claim C8: the pipeline is a deterministic function of the seed, `N` and the
cause specs — equal seeds give bit-identical latent matrices, censoring draws,
records and curves — and the sampler's `n * K` draws are consumed before the
censoring draws, whose raw values therefore sit at stream positions
`n * K, n * K + 1, ...` of the seeded stream. -/
theorem run_reproducible_and_draw_order (stream : ℕ → ℕ → ℝ)
    (F : CauseSpec → ℝ → ℝ) (n : ℕ) (ds : List CauseSpec) (dt high : ℝ)
    (seed₁ seed₂ : ℕ) (h : seed₁ = seed₂) :
    full_run stream F seed₁ n ds dt high = full_run stream F seed₂ n ds dt high ∧
    (full_run stream F seed₁ n ds dt high).cens
      = (List.range n).map fun i => high * stream seed₁ (n * ds.length + i) := by
  subst h
  refine ⟨rfl, ?_⟩
  show ((drawN stream n (sample_event_times stream F n ds ⟨seed₁, 0⟩).2).1.map
    fun v => high * v) = _
  rw [sample_event_times_state, drawN_values, List.map_map]
  refine List.map_congr_left fun j _ => ?_
  show high * stream seed₁ (0 + n * ds.length + j) = _
  rw [Nat.zero_add]

/-- Witness for C8 with the constant stream, the identity transform, one
subject and one cause. -/
theorem run_reproducible_and_draw_order_witness :
    (0 : ℕ) = 0 ∧
    (full_run constStream idTransform 0 1 [⟨1, 1, 1⟩] 1 1
        = full_run constStream idTransform 0 1 [⟨1, 1, 1⟩] 1 1 ∧
      (full_run constStream idTransform 0 1 [⟨1, 1, 1⟩] 1 1).cens
        = (List.range 1).map fun i =>
            1 * constStream 0 (1 * ([⟨1, 1, 1⟩] : List CauseSpec).length + i)) :=
  ⟨rfl, run_reproducible_and_draw_order constStream idTransform 1 [⟨1, 1, 1⟩] 1 1 0 0 rfl⟩

/-- One integration step: with per-step hazard mass `h ∈ [0, c]` and current
survival `s ≥ 0`, the survival decrement `s - s * exp(-h)` exceeds the
incidence increment `h * (s * exp(-h))` by a nonnegative amount that is at most
`c * exp c` times the incidence increment. -/
theorem exp_step_bounds (h c s : ℝ) (h0 : 0 ≤ h) (hc : h ≤ c) (hs : 0 ≤ s) :
    0 ≤ s - s * Real.exp (-h) - h * (s * Real.exp (-h)) ∧
    s - s * Real.exp (-h) - h * (s * Real.exp (-h))
      ≤ c * Real.exp c * (h * (s * Real.exp (-h))) := by
  have e1 : 1 + h ≤ Real.exp h := by linarith [Real.add_one_le_exp h]
  have e2 : Real.exp h ≤ Real.exp c := Real.exp_le_exp.mpr hc
  have e3 : 0 < Real.exp (-h) := Real.exp_pos _
  have e4 : Real.exp h * Real.exp (-h) = 1 := by
    rw [← Real.exp_add]
    simp
  have key1 : (1 + h) * Real.exp (-h) ≤ 1 := by
    calc (1 + h) * Real.exp (-h) ≤ Real.exp h * Real.exp (-h) :=
          mul_le_mul_of_nonneg_right e1 e3.le
      _ = 1 := e4
  have key2 : Real.exp h - 1 ≤ h * Real.exp h := by
    nlinarith [Real.add_one_le_exp (-h), Real.exp_pos h, e4]
  have hc0 : 0 ≤ c := h0.trans hc
  have key3 : Real.exp h - 1 - h ≤ h * (c * Real.exp c) := by
    have k1 : h * (Real.exp h - 1) ≤ h * (h * Real.exp h) :=
      mul_le_mul_of_nonneg_left key2 h0
    have k2 : h * Real.exp h ≤ c * Real.exp c :=
      mul_le_mul hc e2 (Real.exp_pos h).le hc0
    nlinarith [mul_le_mul_of_nonneg_left k2 h0]
  have hsE : 0 ≤ s * Real.exp (-h) := mul_nonneg hs e3.le
  constructor
  · nlinarith [mul_nonneg hs (sub_nonneg.mpr key1)]
  · have k4 : s * Real.exp (-h) * (Real.exp h - 1 - h)
        ≤ s * Real.exp (-h) * (h * (c * Real.exp c)) :=
      mul_le_mul_of_nonneg_left key3 hsE
    have e5 : s * (Real.exp h * Real.exp (-h)) = s := by rw [e4, mul_one]
    nlinarith [k4, e5]

/-- Discrete competing-risks identity with error control: the accumulated
incidence plus the survival never exceeds `1`, and falls short of `1` by at
most `c * exp c` times the accumulated incidence, whenever every per-step
hazard mass lies in `[0, c]`. -/
theorem step_identity_bound (h : ℕ → ℝ) (c : ℝ) :
    ∀ i : ℕ, (∀ j, j ≤ i → 0 ≤ h j) → (∀ j, j ≤ i → h j ≤ c) →
    stepIncidence h i + stepSurvival h i ≤ 1 ∧
    1 - (stepIncidence h i + stepSurvival h i)
      ≤ c * Real.exp c * stepIncidence h i := by
  intro i
  induction i with
  | zero =>
    intro h0 hc
    have hS : stepSurvival h 0 = Real.exp (-(h 0)) := by
      rw [stepSurvival, cumsum_zero]
    have hD : stepIncidence h 0 = h 0 * stepSurvival h 0 := by
      rw [stepIncidence, cumsum_zero]
    obtain ⟨k1, k2⟩ := exp_step_bounds (h 0) c 1 (h0 0 le_rfl) (hc 0 le_rfl) zero_le_one
    rw [hD, hS]
    constructor
    · nlinarith [k1]
    · nlinarith [k2]
  | succ i ih =>
    intro h0 hc
    obtain ⟨ih1, ih2⟩ := ih (fun j hj => h0 j (hj.trans (Nat.le_succ i)))
      (fun j hj => hc j (hj.trans (Nat.le_succ i)))
    have hS : stepSurvival h (i + 1) = stepSurvival h i * Real.exp (-(h (i + 1))) := by
      rw [stepSurvival, stepSurvival, cumsum_succ, neg_add, Real.exp_add]
    have hD : stepIncidence h (i + 1)
        = stepIncidence h i + h (i + 1) * stepSurvival h (i + 1) := by
      rw [stepIncidence, stepIncidence, cumsum_succ]
    have hSpos : 0 ≤ stepSurvival h i := (Real.exp_pos _).le
    obtain ⟨k1, k2⟩ := exp_step_bounds (h (i + 1)) c (stepSurvival h i)
      (h0 _ le_rfl) (hc _ le_rfl) hSpos
    constructor
    · rw [hD, hS]
      nlinarith [ih1, k1]
    · rw [hD, hS]
      nlinarith [ih2, k2]

/-- A list sum of range sums commutes to a range sum of list sums. -/
theorem list_sum_map_range_comm {α : Type} (l : List α) (g : α → ℕ → ℝ) (n : ℕ) :
    (l.map fun a => ∑ j ∈ Finset.range n, g a j).sum
      = ∑ j ∈ Finset.range n, (l.map fun a => g a j).sum := by
  induction l with
  | nil => simp
  | cons x xs ih => simp [ih, Finset.sum_add_distrib]

/-- The source's survival curve is the abstract step survival of the
premultiplied total hazard. -/
theorem any_event_survival_eq_step (ds : List CauseSpec) (grid : ℕ → ℝ)
    (dt : ℝ) (j : ℕ) :
    any_event_survival ds grid dt j
      = stepSurvival (fun k => any_event_hazards ds grid k * dt) j := by
  have hmul : cumsum (any_event_hazards ds grid) j * dt
      = cumsum (fun k => any_event_hazards ds grid k * dt) j := by
    rw [cumsum, cumsum, Finset.sum_mul]
  rw [any_event_survival, stepSurvival, hmul]

/-- The sum of the per-cause CIF curves is the abstract accumulated incidence
of the premultiplied total hazard. -/
theorem cif_list_sum_eq_step (ds : List CauseSpec) (dt : ℝ) (i : ℕ) :
    (ds.map fun d => theoretical_cif ds d (uniformGrid dt) dt i).sum
      = stepIncidence (fun k => any_event_hazards ds (uniformGrid dt) k * dt) i := by
  have e1 : ∀ d, theoretical_cif ds d (uniformGrid dt) dt i
      = ∑ j ∈ Finset.range (i + 1),
          hazard_of d (uniformGrid dt j) * any_event_survival ds (uniformGrid dt) dt j * dt := by
    intro d
    rw [theoretical_cif, cumsum, Finset.sum_mul]
  rw [stepIncidence, cumsum]
  calc (ds.map fun d => theoretical_cif ds d (uniformGrid dt) dt i).sum
      = (ds.map fun d => ∑ j ∈ Finset.range (i + 1),
          hazard_of d (uniformGrid dt j)
            * any_event_survival ds (uniformGrid dt) dt j * dt).sum := by
        rw [List.map_congr_left fun d _ => e1 d]
    _ = ∑ j ∈ Finset.range (i + 1), (ds.map fun d =>
          hazard_of d (uniformGrid dt j)
            * any_event_survival ds (uniformGrid dt) dt j * dt).sum :=
        list_sum_map_range_comm ds _ (i + 1)
    _ = ∑ j ∈ Finset.range (i + 1),
          any_event_hazards ds (uniformGrid dt) j * dt
            * stepSurvival (fun k => any_event_hazards ds (uniformGrid dt) k * dt) j := by
        refine Finset.sum_congr rfl fun j _ => ?_
        have e2 : (ds.map fun d =>
            hazard_of d (uniformGrid dt j)
              * any_event_survival ds (uniformGrid dt) dt j * dt).sum
            = (ds.map fun d => hazard_of d (uniformGrid dt j)).sum
              * (any_event_survival ds (uniformGrid dt) dt j * dt) := by
          rw [← List.sum_map_mul_right]
          refine congrArg List.sum (List.map_congr_left fun d _ => ?_)
          ring
        have e3 : (ds.map fun d => hazard_of d (uniformGrid dt j)).sum
            = any_event_hazards ds (uniformGrid dt) j := by
          rw [any_event_hazards, all_hazards, List.map_map]
          rfl
        rw [e2, e3, any_event_survival_eq_step]
        ring

/-- Claim C6: at every grid point of a uniform grid of step `dt ≥ 0`, the sum
over causes of the CIF curves plus the all-cause survival equals `1` up to a
tolerance governed by the grid resolution: at most `M * dt * exp (M * dt)`,
where `M` bounds the total hazard over the grid points seen so far. -/
theorem competing_risks_identity_tolerance (ds : List CauseSpec) (dt M : ℝ)
    (i : ℕ) (hpos : ∀ d ∈ ds, 0 < d.shape ∧ 0 < d.scale) (hdt : 0 ≤ dt)
    (hM : ∀ j, j ≤ i → any_event_hazards ds (uniformGrid dt) j ≤ M) :
    |((ds.map fun d => theoretical_cif ds d (uniformGrid dt) dt i).sum
      + any_event_survival ds (uniformGrid dt) dt i) - 1|
      ≤ M * dt * Real.exp (M * dt) := by
  have hnn : ∀ j, j ≤ i → 0 ≤ any_event_hazards ds (uniformGrid dt) j * dt :=
    fun j _ => mul_nonneg
      (any_event_hazards_nonneg hpos (uniformGrid_nonneg hdt j)) hdt
  have hub : ∀ j, j ≤ i → any_event_hazards ds (uniformGrid dt) j * dt ≤ M * dt :=
    fun j hj => mul_le_mul_of_nonneg_right (hM j hj) hdt
  obtain ⟨b1, b2⟩ := step_identity_bound
    (fun k => any_event_hazards ds (uniformGrid dt) k * dt) (M * dt) i hnn hub
  rw [cif_list_sum_eq_step, any_event_survival_eq_step]
  have hC0 : 0 ≤ M * dt := (hnn 0 (Nat.zero_le i)).trans (hub 0 (Nat.zero_le i))
  have hSpos : 0 < stepSurvival
      (fun k => any_event_hazards ds (uniformGrid dt) k * dt) i := Real.exp_pos _
  have hD1 : stepIncidence
      (fun k => any_event_hazards ds (uniformGrid dt) k * dt) i ≤ 1 := by
    linarith
  have habs : |(stepIncidence (fun k => any_event_hazards ds (uniformGrid dt) k * dt) i
      + stepSurvival (fun k => any_event_hazards ds (uniformGrid dt) k * dt) i) - 1|
      = 1 - (stepIncidence (fun k => any_event_hazards ds (uniformGrid dt) k * dt) i
        + stepSurvival (fun k => any_event_hazards ds (uniformGrid dt) k * dt) i) := by
    rw [abs_of_nonpos (by linarith)]
    ring
  rw [habs]
  calc 1 - (stepIncidence (fun k => any_event_hazards ds (uniformGrid dt) k * dt) i
        + stepSurvival (fun k => any_event_hazards ds (uniformGrid dt) k * dt) i)
      ≤ M * dt * Real.exp (M * dt)
        * stepIncidence (fun k => any_event_hazards ds (uniformGrid dt) k * dt) i := b2
    _ ≤ M * dt * Real.exp (M * dt) * 1 :=
        mul_le_mul_of_nonneg_left hD1 (mul_nonneg hC0 (Real.exp_pos _).le)
    _ = M * dt * Real.exp (M * dt) := mul_one _

/-- Witness for C6 with the single cause `⟨1, 1, 1⟩`, `dt = 1`, bound `M = 1`,
at the first grid point. -/
theorem competing_risks_identity_tolerance_witness :
    (∀ d ∈ ([⟨1, 1, 1⟩] : List CauseSpec), 0 < d.shape ∧ 0 < d.scale) ∧
    (0 : ℝ) ≤ 1 ∧
    (∀ j, j ≤ 0 → any_event_hazards [⟨1, 1, 1⟩] (uniformGrid 1) j ≤ 1) ∧
    |(([⟨1, 1, 1⟩] : List CauseSpec).map
        (fun d => theoretical_cif [⟨1, 1, 1⟩] d (uniformGrid 1) 1 0)).sum
      + any_event_survival [⟨1, 1, 1⟩] (uniformGrid 1) 1 0 - 1|
      ≤ 1 * 1 * Real.exp (1 * 1) := by
  have hpos : ∀ d ∈ ([⟨1, 1, 1⟩] : List CauseSpec), 0 < d.shape ∧ 0 < d.scale := by
    intro d hd
    rw [List.mem_singleton] at hd
    subst hd
    exact ⟨one_pos, one_pos⟩
  have hM : ∀ j, j ≤ 0 → any_event_hazards [⟨1, 1, 1⟩] (uniformGrid 1) j ≤ 1 := by
    intro j hj
    rw [Nat.le_zero] at hj
    subst hj
    simp [any_event_hazards, all_hazards, hazard_of, weibull_hazard, uniformGrid]
  exact ⟨hpos, zero_le_one, hM,
    competing_risks_identity_tolerance [⟨1, 1, 1⟩] 1 1 0 hpos zero_le_one hM⟩
